import Mathlib

/-!
Verification of the core allocation logic of `ta-matcher` (`block.py`).

The program assigns groups of students to TAs subject to block lists and
history constraints.  This file gives a shallow embedding of the core
functions `project_conflicts`, `assign_project` and
`update_project_history`, and proves (or refutes) the specified
properties about them.

Modelling conventions, all taken from the source:
* TA and student logins are `String`s (Python compares them by code
  points, as Lean does).
* `tas` is the iteration order of the Python set of TA logins: a
  duplicate-free `List String`.
* A group (`pair`) is the iteration sequence of a Python set of student
  logins, modelled as `List String`; only membership and whole-group
  appends are ever performed on it.
* `history` and `blocks` are Python dicts mapping each TA to a set of
  students; the precondition that every needed key is present makes a
  total function `String → Finset String` a faithful model.
* `ta2groups` is a Python dict whose keys are exactly the TA logins in
  insertion order: modelled by `Alloc` below (key list plus lookup).
* Python exceptions reachable in `assign_project` are the
  `ZeroDivisionError` from `math.ceil(len(student_pairs)/len(tas))` with
  no TAs, and the `AssertionError` from the final
  `assert(not project_conflicts(ta2groups, blocks))`; the function
  therefore returns an `Except`.
* The candidate filter in `assign_project` iterates over the `options`
  list while calling `options.remove(ta)` on it.  In Python this skips
  the element that directly follows each removed element; `buggyFilter`
  reproduces exactly that semantics.
-/

/-- A Python dict from TA logins to lists of groups: the key list (dict
iteration order) together with the lookup function. -/
structure Alloc where
  keys : List String
  groups : String → List (List String)

/-- The Python exceptions that `assign_project` can raise. -/
inductive PyError where
  | zeroDivisionError
  | assertionError
deriving DecidableEq

/-- Modelled from the spec: `find_conflict` is called by
`project_conflicts` (src/block.py line 150) but its definition is not
under src/.  Per spec section 4.3 a conflict exists exactly when the
student is in that staff member's block set, and the checker reports the
specific conflicting pair; the call site reads the blocking TA login
from index 1 of a truthy result. -/
def find_conflict (ta student : String) (blocks : String → Finset String) :
    Option (String × String) :=
  if student ∈ blocks ta then some (student, ta) else none

/-- `project_conflicts(ta2groups, blocks)` (src/block.py lines 144-154):
threads the `found_conflict` flag through the triple loop over the
items of `ta2groups`, the groups of each TA and the students of each
group, setting it when `find_conflict` returns a truthy value. -/
def project_conflicts (ta2groups : Alloc) (blocks : String → Finset String) : Bool :=
  ta2groups.keys.foldl
    (fun found ta =>
      (ta2groups.groups ta).foldl
        (fun found2 pair =>
          pair.foldl
            (fun found3 student =>
              if (find_conflict ta student blocks).isSome then true else found3)
            found2)
        found)
    false

/-- The body of `if student in history[ta] or student in blocks[ta]`
(src/block.py line 171), as a predicate on the candidate TA: the TA is
removed as soon as ANY student of the group is blocked or historical. -/
def conflictTA (history blocks : String → Finset String) (pair : List String)
    (ta : String) : Bool :=
  pair.any (fun s => decide (s ∈ history ta) || decide (s ∈ blocks ta))

/-- The candidate-removal loop of src/block.py lines 169-172:
`for ta in options: ... options.remove(ta)`.  Python list iteration is
by index, so removing the current element shifts the rest left and the
element directly after a removed one is skipped without being checked.
This function reproduces that semantics exactly for duplicate-free
lists (TA logins come from a Python set). -/
def buggyFilter (conflict : String → Bool) : List String → List String
  | [] => []
  | [a] => if conflict a then [] else [a]
  | a :: b :: rest =>
    if conflict a then b :: buggyFilter conflict rest
    else a :: buggyFilter conflict (b :: rest)

/-- One insertion step of a stable ascending insertion sort keyed by
current load, used to model Python's stable
`sorted(list(tas.copy()), key=lambda ta: len(ta2groups[ta]))`
(src/block.py line 168). -/
def insertLoad (g : String → List (List String)) (ta : String) :
    List String → List String
  | [] => [ta]
  | b :: rest =>
    if (g ta).length ≤ (g b).length then ta :: b :: rest
    else b :: insertLoad g ta rest

/-- Stable sort of the TA list by ascending current group count,
modelling `sorted(list(tas.copy()), key=lambda ta: len(ta2groups[ta]))`:
ties keep the order of `tas`. -/
def sortByLoad (g : String → List (List String)) (tas : List String) : List String :=
  tas.foldr (insertLoad g) []

/-- The `options` list for one group: all TAs sorted by current load,
then run through the candidate-removal loop. -/
def optionsFor (history blocks : String → Finset String)
    (g : String → List (List String)) (tas : List String) (pair : List String) :
    List String :=
  buggyFilter (conflictTA history blocks pair) (sortByLoad g tas)

/-- The placement scan of src/block.py lines 177-181: the first option
whose current group count is strictly below the cap, if any
(`if len(ta2groups[ta]) >= max_groups_per_ta: continue`). -/
def firstUnderCap (g : String → List (List String)) (cap : Nat) :
    List String → Option String
  | [] => none
  | ta :: rest =>
    if (g ta).length < cap then some ta else firstUnderCap g cap rest

/-- Python tuple comparison `(load, ta) < (load2, ta2)`: by load first,
then lexicographically by TA login. -/
def pairLtB (p q : Nat × String) : Bool :=
  decide (p.1 < q.1) || (decide (p.1 = q.1) && decide (p.2 < q.2))

/-- Python's `min` over a nonempty list of `(load, ta)` tuples: fold
keeping the current minimum, replacing it only on strict decrease. -/
def pyMin (x : Nat × String) (l : List (Nat × String)) : Nat × String :=
  l.foldl (fun m y => if pairLtB y m then y else m) x

/-- `min([(len(ta2groups[t]), t) for t in options])[1]`
(src/block.py line 186), on a nonempty options list `o :: os`. -/
def smallest_option (g : String → List (List String)) (o : String)
    (os : List String) : String :=
  (pyMin ((g o).length, o) (os.map (fun t => ((g t).length, t)))).2

/-- `ta2groups[ta].append(pair)` on the dict modelled as a function. -/
def appendTo (g : String → List (List String)) (ta : String) (pair : List String) :
    String → List (List String) :=
  fun t => if t = ta then g t ++ [pair] else g t

/-- The body of the main loop of `assign_project` for one group
(src/block.py lines 164-187): build the filtered options, skip the
group if none remain, otherwise place it with the first option under
the cap, or failing that with the option of minimal `(load, ta)`. -/
def stepGroup (history blocks : String → Finset String) (cap : Nat)
    (tas : List String) (g : String → List (List String)) (pair : List String) :
    String → List (List String) :=
  match optionsFor history blocks g tas pair,
      firstUnderCap g cap (optionsFor history blocks g tas pair) with
  | [], _ => g
  | _ :: _, some ta => appendTo g ta pair
  | o :: os, none => appendTo g (smallest_option g o os) pair

/-- `max_groups_per_ta = math.ceil(len(student_pairs)/len(tas))`
(src/block.py line 163), as the exact ceiling of the division. -/
def max_groups_per_ta (student_pairs : List (List String)) (tas : List String) : Nat :=
  (student_pairs.length + tas.length - 1) / tas.length

/-- The main loop of `assign_project`: process the groups in input
order starting from the all-empty dict built by `dict.fromkeys`. -/
def runGroups (history blocks : String → Finset String) (cap : Nat)
    (tas : List String) (student_pairs : List (List String)) :
    String → List (List String) :=
  student_pairs.foldl (stepGroup history blocks cap tas) (fun _ => [])

/-- `assign_project(tas, student_pairs, history, blocks)`
(src/block.py lines 158-189).  With no TAs, computing
`max_groups_per_ta` raises `ZeroDivisionError`; after the loop,
`assert(not project_conflicts(ta2groups, blocks))` raises
`AssertionError` if the built allocation has a block conflict;
otherwise the allocation is returned. -/
def assign_project (tas : List String) (student_pairs : List (List String))
    (history blocks : String → Finset String) : Except PyError Alloc :=
  if tas.length = 0 then Except.error PyError.zeroDivisionError
  else if project_conflicts
      (Alloc.mk tas (runGroups history blocks (max_groups_per_ta student_pairs tas) tas student_pairs))
      blocks
  then Except.error PyError.assertionError
  else Except.ok
    (Alloc.mk tas (runGroups history blocks (max_groups_per_ta student_pairs tas) tas student_pairs))

/-- The two inner loops of `update_project_history` for one TA: add
every student of every group to the given set
(`curr_history[ta].add(student)`). -/
def addGroups (s : Finset String) (groups : List (List String)) : Finset String :=
  groups.foldl (fun acc pair => pair.foldl (fun acc2 student => insert student acc2) acc) s

/-- The outer loop of `update_project_history` over
`curr_groups.items()`, threading the history dict (modelled as a
function) through the per-TA update. -/
def updateFold (curr_history : String → Finset String) (keys : List String)
    (groups : String → List (List String)) : String → Finset String :=
  keys.foldl
    (fun h ta => fun t => if t = ta then addGroups (h ta) (groups ta) else h t)
    curr_history

/-- `update_project_history(curr_history, curr_groups)`
(src/block.py lines 193-202), the in-memory merge: for every TA in the
allocation, add every student of every group assigned to that TA to the
history set of that TA.  (The optional JSON dump is I/O outside the
core.) -/
def update_project_history (curr_history : String → Finset String)
    (curr_groups : Alloc) : String → Finset String :=
  updateFold curr_history curr_groups.keys curr_groups.groups

/-- The non-strict counterpart of `pairLtB`, as a proposition: the order
in which Python's `min` returns the least `(load, ta)` tuple. -/
abbrev pairLe (p q : Nat × String) : Prop :=
  p.1 < q.1 ∨ (p.1 = q.1 ∧ p.2 ≤ q.2)

/-- A constraint map in which every TA has the empty student set. -/
def emptyMap : String → Finset String := fun _ => ∅

/-- A constraint map in which every TA has the student set {s1}. -/
def allS1 : String → Finset String := fun _ => {"s1"}

/-- The all-empty allocation state built by `dict.fromkeys(tas)`. -/
def empty_groups : String → List (List String) := fun _ => []

theorem find_conflict_isSome (ta s : String) (blocks : String → Finset String) :
    (find_conflict ta s blocks).isSome = decide (s ∈ blocks ta) := by
  unfold find_conflict
  by_cases h : s ∈ blocks ta <;> simp [h]

theorem foldl_flag_eq {α : Type} (f : α → Bool) (l : List α) (b : Bool) :
    l.foldl (fun acc x => if f x then true else acc) b = (b || l.any f) := by
  induction l generalizing b with
  | nil => simp
  | cons x xs ih =>
    simp only [List.foldl_cons, List.any_cons, ih]
    cases hfx : f x <;> simp

theorem foldl_or_eq {α : Type} (f : α → Bool) (l : List α) (b : Bool) :
    l.foldl (fun acc x => acc || f x) b = (b || l.any f) := by
  induction l generalizing b with
  | nil => simp
  | cons x xs ih => simp [List.foldl_cons, ih, Bool.or_assoc]

theorem project_conflicts_eq (a : Alloc) (blocks : String → Finset String) :
    project_conflicts a blocks =
      a.keys.any (fun ta => (a.groups ta).any (fun pair =>
        pair.any (fun s => decide (s ∈ blocks ta)))) := by
  unfold project_conflicts
  simp only [find_conflict_isSome, foldl_flag_eq, foldl_or_eq, Bool.false_or]

theorem project_conflicts_false_iff (a : Alloc) (blocks : String → Finset String) :
    project_conflicts a blocks = false ↔
      ∀ ta ∈ a.keys, ∀ pair ∈ a.groups ta, ∀ s ∈ pair, s ∉ blocks ta := by
  rw [project_conflicts_eq]
  simp [List.any_eq_false]

/-- C3: the conflict checker `project_conflicts` is a total Boolean
function; it returns `true` exactly when some staff member of the
allocation has an assigned group containing a student of that staff
member's block set, and `false` otherwise. -/
theorem project_conflicts_iff_conflict_exists (a : Alloc)
    (blocks : String → Finset String) :
    project_conflicts a blocks = true ↔
      ∃ ta ∈ a.keys, ∃ pair ∈ a.groups ta, ∃ s ∈ pair, s ∈ blocks ta := by
  rw [project_conflicts_eq]
  simp [List.any_eq_true]

/-- C1: every allocation that `assign_project` actually returns satisfies
the no-conflict invariant: for every staff member and every group in that
staff member's assigned list, no student of the group is in that staff
member's block set.  (The final assert guards the only `return`.) -/
theorem assign_project_no_block_conflict (tas : List String)
    (student_pairs : List (List String)) (history blocks : String → Finset String)
    (a : Alloc)
    (h : assign_project tas student_pairs history blocks = Except.ok a) :
    ∀ ta ∈ a.keys, ∀ pair ∈ a.groups ta, ∀ s ∈ pair, s ∉ blocks ta := by
  unfold assign_project at h
  split_ifs at h with h1 h2
  · injection h with h3
    subst h3
    rw [Bool.not_eq_true] at h2
    exact (project_conflicts_false_iff _ blocks).mp h2

/-- Witness for C1: the run with one TA `X`, one group `{s1}` and empty
constraint maps returns the allocation giving the group to `X`; student
`s1` of that assigned group is not in the block set of `X`. -/
theorem assign_project_no_block_conflict_witness :
    assign_project ["X"] [["s1"]] emptyMap emptyMap =
        Except.ok (Alloc.mk ["X"] (appendTo empty_groups "X" ["s1"])) ∧
      "s1" ∉ emptyMap "X" :=
  ⟨rfl,
    assign_project_no_block_conflict ["X"] [["s1"]] emptyMap emptyMap
      (Alloc.mk ["X"] (appendTo empty_groups "X" ["s1"])) rfl
      "X" (by decide) ["s1"] (by decide) "s1" (by decide)⟩

/-- C7: with an empty staff list `assign_project` fails immediately — the
capacity computation `math.ceil(len(student_pairs)/len(tas))` divides by
zero — so no allocation is ever returned for an empty staff set. -/
theorem assign_project_empty_staff (student_pairs : List (List String))
    (history blocks : String → Finset String) :
    assign_project [] student_pairs history blocks =
      Except.error PyError.zeroDivisionError := rfl

theorem foldl_insert_eq (p : List String) : ∀ s : Finset String,
    p.foldl (fun acc st => insert st acc) s = s ∪ p.toFinset := by
  induction p with
  | nil => intro s; simp
  | cons a p ih =>
    intro s
    rw [List.foldl_cons, ih]
    ext x
    simp only [Finset.mem_union, Finset.mem_insert, List.toFinset_cons, List.mem_toFinset]
    tauto

theorem addGroups_eq (groups : List (List String)) : ∀ s : Finset String,
    addGroups s groups = s ∪ (groups.flatten).toFinset := by
  induction groups with
  | nil => intro s; simp [addGroups]
  | cons p gs ih =>
    intro s
    have h1 : addGroups s (p :: gs) =
        addGroups (p.foldl (fun acc st => insert st acc) s) gs := rfl
    rw [h1, ih, foldl_insert_eq]
    ext x
    simp only [Finset.mem_union, List.mem_toFinset, List.mem_flatten, List.flatten_cons,
      List.mem_append]
    tauto

theorem updateFold_apply (groups : String → List (List String)) :
    ∀ (keys : List String) (curr_history : String → Finset String) (t : String),
    updateFold curr_history keys groups t =
      if t ∈ keys then curr_history t ∪ ((groups t).flatten).toFinset
      else curr_history t := by
  intro keys
  induction keys with
  | nil => intro h t; simp [updateFold]
  | cons ta rest ih =>
    intro h t
    have h1 : updateFold h (ta :: rest) groups =
        updateFold (fun u => if u = ta then addGroups (h ta) (groups ta) else h u)
          rest groups := rfl
    rw [h1, ih]
    by_cases h2 : t = ta
    · subst h2
      by_cases h3 : t ∈ rest
      · simp [h3, addGroups_eq, Finset.union_assoc]
      · simp [h3, addGroups_eq]
    · by_cases h3 : t ∈ rest
      · simp [h2, h3]
      · simp [h2, h3]

/-- C8: `update_project_history` gives each staff member appearing in the
allocation the union of their prior history set with every student of
every group assigned to them. -/
theorem update_project_history_is_union (curr_history : String → Finset String)
    (curr_groups : Alloc) (ta : String) (hmem : ta ∈ curr_groups.keys) :
    update_project_history curr_history curr_groups ta =
      curr_history ta ∪ ((curr_groups.groups ta).flatten).toFinset := by
  rw [update_project_history, updateFold_apply, if_pos hmem]

/-- Witness for C8 (Scenario D): on the allocation assigning the single
group {s1, s2} to X, with prior history X ↦ {s3}, the updated history at
X is {s1, s2, s3}. -/
theorem update_project_history_is_union_witness :
    "X" ∈ (Alloc.mk ["X"] (fun _ => [["s1", "s2"]])).keys ∧
    update_project_history (fun _ => {"s3"})
        (Alloc.mk ["X"] (fun _ => [["s1", "s2"]])) "X" =
      {"s1", "s2", "s3"} :=
  ⟨by decide, (update_project_history_is_union (fun _ => {"s3"})
      (Alloc.mk ["X"] (fun _ => [["s1", "s2"]])) "X" (by decide)).trans (by decide)⟩

/-- C9: the history updater is idempotent (applying it twice with the
same allocation equals applying it once) and monotonic (every staff
member's history set only grows, never shrinks). -/
theorem update_project_history_idem_mono (curr_history : String → Finset String)
    (curr_groups : Alloc) :
    update_project_history (update_project_history curr_history curr_groups)
          curr_groups =
        update_project_history curr_history curr_groups ∧
      ∀ ta, curr_history ta ⊆ update_project_history curr_history curr_groups ta := by
  constructor
  · funext t
    simp only [update_project_history, updateFold_apply]
    by_cases h : t ∈ curr_groups.keys
    · simp [h, Finset.union_assoc]
    · simp [h]
  · intro ta
    rw [update_project_history, updateFold_apply]
    by_cases h : ta ∈ curr_groups.keys
    · simp only [if_pos h]
      exact Finset.subset_union_left
    · simp [h]

theorem buggyFilter_sublist (conflict : String → Bool) :
    ∀ l : List String, List.Sublist (buggyFilter conflict l) l
  | [] => by simp [buggyFilter]
  | [a] => by
    by_cases h : conflict a <;> simp [buggyFilter, h]
  | a :: b :: rest => by
    by_cases h : conflict a
    · simpa [buggyFilter, h] using
        List.Sublist.cons a (List.Sublist.cons₂ b (buggyFilter_sublist conflict rest))
    · simpa [buggyFilter, h] using
        List.Sublist.cons₂ a (buggyFilter_sublist conflict (b :: rest))

theorem insertLoad_mem (g : String → List (List String)) (ta x : String) :
    ∀ l : List String, x ∈ insertLoad g ta l → x = ta ∨ x ∈ l := by
  intro l
  induction l with
  | nil => simp [insertLoad]
  | cons b rest ih =>
    by_cases h : (g ta).length ≤ (g b).length
    · intro hx
      simp only [insertLoad, if_pos h, List.mem_cons] at hx
      rcases hx with h1 | h1 | h1
      · exact Or.inl h1
      · exact Or.inr (by simp [h1])
      · exact Or.inr (by simp [h1])
    · intro hx
      simp only [insertLoad, if_neg h, List.mem_cons] at hx
      rcases hx with h1 | h1
      · exact Or.inr (by simp [h1])
      · rcases ih h1 with h2 | h2
        · exact Or.inl h2
        · exact Or.inr (by simp [h2])

theorem insertLoad_pairwise (g : String → List (List String)) (ta : String) :
    ∀ l : List String,
    List.Pairwise (fun x y => (g x).length ≤ (g y).length) l →
    List.Pairwise (fun x y => (g x).length ≤ (g y).length) (insertLoad g ta l) := by
  intro l
  induction l with
  | nil => intro _; simp [insertLoad]
  | cons b rest ih =>
    intro hp
    rw [List.pairwise_cons] at hp
    obtain ⟨hb, hrest⟩ := hp
    by_cases h : (g ta).length ≤ (g b).length
    · rw [show insertLoad g ta (b :: rest) = ta :: b :: rest by simp [insertLoad, h]]
      rw [List.pairwise_cons]
      refine ⟨?_, ?_⟩
      · intro y hy
        rcases List.mem_cons.mp hy with h1 | h1
        · subst h1; exact h
        · exact le_trans h (hb y h1)
      · rw [List.pairwise_cons]; exact ⟨hb, hrest⟩
    · rw [show insertLoad g ta (b :: rest) = b :: insertLoad g ta rest by
        simp [insertLoad, h]]
      rw [List.pairwise_cons]
      refine ⟨?_, ih hrest⟩
      intro y hy
      rcases insertLoad_mem g ta y rest hy with h1 | h1
      · subst h1; exact Nat.le_of_not_le h
      · exact hb y h1

theorem sortByLoad_pairwise (g : String → List (List String)) (tas : List String) :
    List.Pairwise (fun x y => (g x).length ≤ (g y).length) (sortByLoad g tas) := by
  induction tas with
  | nil => simp [sortByLoad]
  | cons a rest ih =>
    exact insertLoad_pairwise g a (sortByLoad g rest) ih

theorem optionsFor_sorted (history blocks : String → Finset String)
    (g : String → List (List String)) (tas : List String) (pair : List String) :
    List.Pairwise (fun x y => (g x).length ≤ (g y).length)
      (optionsFor history blocks g tas pair) :=
  List.Pairwise.sublist (buggyFilter_sublist _ _) (sortByLoad_pairwise g tas)

theorem firstUnderCap_some (g : String → List (List String)) (cap : Nat) :
    ∀ (l : List String) (ta : String), firstUnderCap g cap l = some ta →
      (g ta).length < cap ∧
        ∃ l1 l2, l = l1 ++ ta :: l2 ∧ ∀ o ∈ l1, cap ≤ (g o).length := by
  intro l
  induction l with
  | nil => intro ta h; simp [firstUnderCap] at h
  | cons b rest ih =>
    intro ta h
    by_cases hb : (g b).length < cap
    · rw [show firstUnderCap g cap (b :: rest) = some b by
        simp [firstUnderCap, hb]] at h
      injection h with h2
      subst h2
      exact ⟨hb, [], rest, rfl, by simp⟩
    · rw [show firstUnderCap g cap (b :: rest) = firstUnderCap g cap rest by
        simp [firstUnderCap, hb]] at h
      obtain ⟨h1, l1, l2, h3, h4⟩ := ih ta h
      refine ⟨h1, b :: l1, l2, by simp [h3], ?_⟩
      intro o ho
      rcases List.mem_cons.mp ho with h5 | h5
      · subst h5; exact Nat.le_of_not_lt hb
      · exact h4 o h5

theorem firstUnderCap_none (g : String → List (List String)) (cap : Nat) :
    ∀ l : List String, firstUnderCap g cap l = none →
      ∀ o ∈ l, cap ≤ (g o).length := by
  intro l
  induction l with
  | nil => intro _ o ho; simp at ho
  | cons b rest ih =>
    intro h o ho
    by_cases hb : (g b).length < cap
    · rw [show firstUnderCap g cap (b :: rest) = some b by
        simp [firstUnderCap, hb]] at h
      exact absurd h (by simp)
    · rw [show firstUnderCap g cap (b :: rest) = firstUnderCap g cap rest by
        simp [firstUnderCap, hb]] at h
      rcases List.mem_cons.mp ho with h1 | h1
      · subst h1; exact Nat.le_of_not_lt hb
      · exact ih h o h1

theorem firstUnderCap_none_of (g : String → List (List String)) (cap : Nat) :
    ∀ l : List String, (∀ o ∈ l, cap ≤ (g o).length) →
      firstUnderCap g cap l = none := by
  intro l
  induction l with
  | nil => intro _; rfl
  | cons b rest ih =>
    intro h
    have hb : ¬(g b).length < cap := Nat.not_lt.mpr (h b (by simp))
    rw [show firstUnderCap g cap (b :: rest) = firstUnderCap g cap rest by
      simp [firstUnderCap, hb]]
    exact ih (fun o ho => h o (by simp [ho]))

theorem pairLtB_true (p q : Nat × String) (h : pairLtB p q = true) : pairLe p q := by
  unfold pairLtB at h
  simp only [Bool.or_eq_true, Bool.and_eq_true, decide_eq_true_eq] at h
  rcases h with h | ⟨h1, h2⟩
  · exact Or.inl h
  · exact Or.inr ⟨h1, le_of_lt h2⟩

theorem pairLtB_false (p q : Nat × String) (h : pairLtB p q = false) : pairLe q p := by
  unfold pairLtB at h
  simp only [Bool.or_eq_false_iff, Bool.and_eq_false_iff, decide_eq_false_iff_not,
    decide_eq_true_eq] at h
  obtain ⟨h1, h2⟩ := h
  rcases Nat.lt_trichotomy p.1 q.1 with h3 | h3 | h3
  · exact absurd h3 h1
  · rcases h2 with h2 | h2
    · exact absurd h3 h2
    · exact Or.inr ⟨h3.symm, le_of_not_lt h2⟩
  · exact Or.inl h3

theorem pairLe_trans (p q r : Nat × String) (h1 : pairLe p q) (h2 : pairLe q r) :
    pairLe p r := by
  rcases h1 with h1 | ⟨h1a, h1b⟩
  · rcases h2 with h2 | ⟨h2a, h2b⟩
    · exact Or.inl (by omega)
    · exact Or.inl (by omega)
  · rcases h2 with h2 | ⟨h2a, h2b⟩
    · exact Or.inl (by omega)
    · exact Or.inr ⟨by omega, le_trans h1b h2b⟩

theorem pyMin_spec : ∀ (l : List (Nat × String)) (x : Nat × String),
    pyMin x l ∈ x :: l ∧ ∀ y ∈ x :: l, pairLe (pyMin x l) y := by
  intro l
  induction l with
  | nil =>
    intro x
    refine ⟨by simp [pyMin], ?_⟩
    intro y hy
    rw [List.mem_singleton] at hy
    subst hy
    exact Or.inr ⟨rfl, le_refl _⟩
  | cons y l ih =>
    intro x
    have hstep : pyMin x (y :: l) = pyMin (if pairLtB y x then y else x) l := rfl
    obtain ⟨ih1, ih2⟩ := ih (if pairLtB y x then y else x)
    have hmx : pairLe (if pairLtB y x then y else x) x := by
      by_cases hc : pairLtB y x = true
      · rw [if_pos hc]; exact pairLtB_true y x hc
      · rw [if_neg hc]; exact Or.inr ⟨rfl, le_refl _⟩
    have hmy : pairLe (if pairLtB y x then y else x) y := by
      by_cases hc : pairLtB y x = true
      · rw [if_pos hc]; exact Or.inr ⟨rfl, le_refl _⟩
      · rw [if_neg hc]
        exact pairLtB_false y x (Bool.eq_false_iff.mpr hc)
    have hminm : pairLe (pyMin (if pairLtB y x then y else x) l)
        (if pairLtB y x then y else x) :=
      ih2 _ (List.mem_cons_self _ _)
    refine ⟨?_, ?_⟩
    · rw [hstep]
      rcases List.mem_cons.mp ih1 with h1 | h1
      · rw [h1]
        by_cases hc : pairLtB y x = true
        · rw [if_pos hc]; simp
        · rw [if_neg hc]; simp
      · simp [List.mem_cons.mpr (Or.inr h1)]
    · intro z hz
      rw [hstep]
      rcases List.mem_cons.mp hz with h1 | h1
      · subst h1; exact pairLe_trans _ _ _ hminm hmx
      · rcases List.mem_cons.mp h1 with h2 | h2
        · subst h2; exact pairLe_trans _ _ _ hminm hmy
        · exact ih2 z (List.mem_cons.mpr (Or.inr h2))

theorem smallest_option_spec (g : String → List (List String)) (o : String)
    (os : List String) :
    smallest_option g o os ∈ o :: os ∧
      (∀ t ∈ o :: os, (g (smallest_option g o os)).length ≤ (g t).length) ∧
      ∀ t ∈ o :: os, (g t).length = (g (smallest_option g o os)).length →
        smallest_option g o os ≤ t := by
  obtain ⟨h1, h2⟩ := pyMin_spec (os.map (fun t => ((g t).length, t))) ((g o).length, o)
  rw [show ((g o).length, o) :: os.map (fun t => ((g t).length, t)) =
      (o :: os).map (fun t => ((g t).length, t)) from rfl] at h1 h2
  obtain ⟨t0, ht0, heq⟩ := List.mem_map.mp h1
  have h4 : smallest_option g o os = t0 := by
    rw [show smallest_option g o os =
      (pyMin ((g o).length, o) (os.map (fun t => ((g t).length, t)))).2 from rfl, ← heq]
  have h5 : (pyMin ((g o).length, o) (os.map (fun t => ((g t).length, t)))).1 =
      (g t0).length := by rw [← heq]
  refine ⟨h4 ▸ ht0, ?_, ?_⟩
  · intro t ht
    have h6 := h2 ((g t).length, t) (List.mem_map.mpr ⟨t, ht, rfl⟩)
    rw [h4, ← h5]
    rcases h6 with h7 | ⟨h7, h8⟩
    · exact le_of_lt h7
    · exact le_of_eq h7
  · intro t ht htied
    have h6 := h2 ((g t).length, t) (List.mem_map.mpr ⟨t, ht, rfl⟩)
    rw [h4] at htied ⊢
    rw [← h5] at htied
    rcases h6 with h7 | ⟨h7, h8⟩
    · omega
    · have h9 : (pyMin ((g o).length, o)
          (os.map (fun t => ((g t).length, t)))).2 = t0 := by rw [← heq]
      exact h9 ▸ h8

/-- C5: whenever a group has surviving candidates it is placed, never
dropped: the options list is sorted ascending by current load; the group
goes to the first candidate in that order whose load is strictly below
the capacity; and if every surviving candidate is at or above the
capacity, the group is still assigned, to a surviving candidate of
minimal current load. -/
theorem stepGroup_placement (history blocks : String → Finset String) (cap : Nat)
    (tas : List String) (g : String → List (List String)) (pair : List String)
    (hne : optionsFor history blocks g tas pair ≠ []) :
    List.Pairwise (fun x y => (g x).length ≤ (g y).length)
        (optionsFor history blocks g tas pair) ∧
      ∃ ta ∈ optionsFor history blocks g tas pair,
        stepGroup history blocks cap tas g pair = appendTo g ta pair ∧
          ((∃ l1 l2, optionsFor history blocks g tas pair = l1 ++ ta :: l2 ∧
              (g ta).length < cap ∧ ∀ o ∈ l1, cap ≤ (g o).length) ∨
            ((∀ o ∈ optionsFor history blocks g tas pair, cap ≤ (g o).length) ∧
              ∀ o ∈ optionsFor history blocks g tas pair,
                (g ta).length ≤ (g o).length)) := by
  refine ⟨optionsFor_sorted history blocks g tas pair, ?_⟩
  rcases hopts : optionsFor history blocks g tas pair with _ | ⟨o, os⟩
  · exact absurd hopts hne
  rcases hfirst : firstUnderCap g cap (o :: os) with _ | ta
  · have hsat := firstUnderCap_none g cap (o :: os) hfirst
    obtain ⟨hmem, hmin, htie⟩ := smallest_option_spec g o os
    refine ⟨smallest_option g o os, hmem, ?_, ?_⟩
    · unfold stepGroup
      rw [hopts, hfirst]
    · refine Or.inr ⟨?_, ?_⟩
      · intro t ht
        exact hsat t ht
      · intro t ht
        exact hmin t ht
  · obtain ⟨hlt, l1, l2, hsplit, hcap⟩ := firstUnderCap_some g cap (o :: os) ta hfirst
    refine ⟨ta, ?_, ?_, ?_⟩
    · rw [hsplit]
      simp
    · unfold stepGroup
      rw [hopts, hfirst]
    · exact Or.inl ⟨l1, l2, hsplit, hlt, hcap⟩

/-- Witness for C5: one unblocked TA, capacity 1 — the single surviving
candidate is under the cap and receives the group. -/
theorem stepGroup_placement_witness :
    optionsFor emptyMap emptyMap empty_groups ["A"] ["s1"] ≠ [] ∧
      (List.Pairwise
          (fun x y => (empty_groups x).length ≤ (empty_groups y).length)
          (optionsFor emptyMap emptyMap empty_groups ["A"] ["s1"]) ∧
        ∃ ta ∈ optionsFor emptyMap emptyMap empty_groups ["A"] ["s1"],
          stepGroup emptyMap emptyMap 1 ["A"] empty_groups ["s1"] =
              appendTo empty_groups ta ["s1"] ∧
            ((∃ l1 l2,
                optionsFor emptyMap emptyMap empty_groups ["A"] ["s1"] =
                    l1 ++ ta :: l2 ∧
                  (empty_groups ta).length < 1 ∧
                  ∀ o ∈ l1, 1 ≤ (empty_groups o).length) ∨
              ((∀ o ∈ optionsFor emptyMap emptyMap empty_groups ["A"] ["s1"],
                  1 ≤ (empty_groups o).length) ∧
                ∀ o ∈ optionsFor emptyMap emptyMap empty_groups ["A"] ["s1"],
                  (empty_groups ta).length ≤ (empty_groups o).length))) :=
  ⟨by decide,
    stepGroup_placement emptyMap emptyMap 1 ["A"] empty_groups ["s1"] (by decide)⟩

/-- C10: when the over-capacity override fires (every surviving candidate
is at or above the capacity), the group is assigned to the surviving
candidate with minimal `(load, login)` pair: smallest current load, ties
broken by the lexicographically smallest TA login. -/
theorem stepGroup_override_tiebreak (history blocks : String → Finset String)
    (cap : Nat) (tas : List String) (g : String → List (List String))
    (pair : List String)
    (hne : optionsFor history blocks g tas pair ≠ [])
    (hsat : ∀ o ∈ optionsFor history blocks g tas pair, cap ≤ (g o).length) :
    ∃ ta ∈ optionsFor history blocks g tas pair,
      stepGroup history blocks cap tas g pair = appendTo g ta pair ∧
        (∀ o ∈ optionsFor history blocks g tas pair,
          (g ta).length ≤ (g o).length) ∧
        ∀ o ∈ optionsFor history blocks g tas pair,
          (g o).length = (g ta).length → ta ≤ o := by
  rcases hopts : optionsFor history blocks g tas pair with _ | ⟨o, os⟩
  · exact absurd hopts hne
  rw [hopts] at hsat
  have hfirst : firstUnderCap g cap (o :: os) = none :=
    firstUnderCap_none_of g cap (o :: os) hsat
  obtain ⟨hmem, hmin, htie⟩ := smallest_option_spec g o os
  refine ⟨smallest_option g o os, hmem, ?_, ?_, ?_⟩
  · unfold stepGroup
    rw [hopts, hfirst]
  · intro t ht
    exact hmin t ht
  · intro t ht htied
    exact htie t ht htied

/-- Witness for C10: two equally-loaded TAs B and A and capacity 0, so
the override fires; the group goes to A, the lexicographically smaller
login. -/
theorem stepGroup_override_tiebreak_witness :
    optionsFor emptyMap emptyMap empty_groups ["B", "A"] ["s1"] ≠ [] ∧
      (∀ o ∈ optionsFor emptyMap emptyMap empty_groups ["B", "A"] ["s1"],
        0 ≤ (empty_groups o).length) ∧
      ∃ ta ∈ optionsFor emptyMap emptyMap empty_groups ["B", "A"] ["s1"],
        stepGroup emptyMap emptyMap 0 ["B", "A"] empty_groups ["s1"] =
            appendTo empty_groups ta ["s1"] ∧
          (∀ o ∈ optionsFor emptyMap emptyMap empty_groups ["B", "A"] ["s1"],
            (empty_groups ta).length ≤ (empty_groups o).length) ∧
          ∀ o ∈ optionsFor emptyMap emptyMap empty_groups ["B", "A"] ["s1"],
            (empty_groups o).length = (empty_groups ta).length → ta ≤ o :=
  ⟨by decide, by decide,
    stepGroup_override_tiebreak emptyMap emptyMap 0 ["B", "A"] empty_groups ["s1"]
      (by decide) (by decide)⟩

/-- C6: a group whose surviving-candidate list is empty is not placed and
does not stop the run: the per-group step leaves the state unchanged and
the loop goes on with the remaining groups, so the group is assigned to
nobody. -/
theorem unplaceable_group_skipped (history blocks : String → Finset String)
    (cap : Nat) (tas : List String) (g : String → List (List String))
    (pair : List String) (rest : List (List String))
    (hempty : optionsFor history blocks g tas pair = []) :
    List.foldl (stepGroup history blocks cap tas) g (pair :: rest) =
      List.foldl (stepGroup history blocks cap tas) g rest := by
  rw [List.foldl_cons]
  have hs : stepGroup history blocks cap tas g pair = g := by
    unfold stepGroup
    rw [hempty]
  rw [hs]

/-- Witness for C6: the only TA A has s1 in history, so the group {s1}
has no surviving candidate and is skipped while the group {s2} is still
processed. -/
theorem unplaceable_group_skipped_witness :
    optionsFor allS1 emptyMap empty_groups ["A"] ["s1"] = [] ∧
      List.foldl (stepGroup allS1 emptyMap 1 ["A"]) empty_groups
          [["s1"], ["s2"]] =
        List.foldl (stepGroup allS1 emptyMap 1 ["A"]) empty_groups [["s2"]] :=
  ⟨by decide,
    unplaceable_group_skipped allS1 emptyMap 1 ["A"] empty_groups ["s1"]
      [["s2"]] (by decide)⟩

/-- C2 fails on the code: with TAs [A, B], group {s1} and s1 in BOTH
pre-run history sets, the removal loop deletes A and thereby skips B
(remove-while-iterating), B receives the group, and the final assert
checks only blocks — so the run returns an allocation assigning {s1} to
B although s1 is in B's pre-run history set. -/
theorem history_conflict_returned :
    (assign_project ["A", "B"] [["s1"]] allS1 emptyMap).map
        (fun a => (a.groups "A", a.groups "B")) =
      Except.ok (([] : List (List String)), [["s1"]]) ∧
    "s1" ∈ allS1 "B" := ⟨rfl, by decide⟩

/-- C4 fails on the code: in Scenario B (staff {X, Y}, one group {s1},
both TAs block s1) the removal loop deletes the first candidate and
skips the second, the still-blocked second candidate receives the group,
and the final assert detects the block conflict — `assign_project`
raises AssertionError instead of returning the empty allocation,
whichever iteration order the staff set has. -/
theorem scenario_b_raises :
    assign_project ["X", "Y"] [["s1"]] emptyMap allS1 =
        Except.error PyError.assertionError ∧
      assign_project ["Y", "X"] [["s1"]] emptyMap allS1 =
        Except.error PyError.assertionError := ⟨rfl, rfl⟩
